import Mathlib

/-!
# Verification of the libuipc differentiable kernel library (cuda_al backend)

Shallow embedding of the core kernel layer described in `spec.md`:

* `DistanceKernels` — the `point_point_distance2` and `point_edge_distance2`
  families declared in `src/backends/cuda_al/utils/distance/point_point.h` and
  `point_edge.h`.  The headers only declare the templated functions (their
  bodies live in `details/*.inl`, which are not part of the given sources), so
  the bodies are modelled from the spec (§4.1): squared Euclidean distance,
  its gradient (partial derivatives concatenated point / edge-end-0 /
  edge-end-1), its symmetric Hessian, and the documented degenerate-edge
  policy.
* `ContactCoeff` — embedded directly from
  `src/backends/cuda_al/contact_system/contact_coeff.h`.
* The stable Neo-Hookean constitutive kernel of
  `src/backends/cuda_al/finite_element/constitutions/stable_neo_hookean_3d_function.h`
  (body `detail/stable_neo_hookean_3d.inl` not in the sources; modelled from
  spec §4.2).
* The `FiniteElementAnimator::FilteredInfo::for_each` filtered iteration
  (`finite_element_animator.inl` forwards to `FiniteElementMethod::_for_each`,
  not in the sources; modelled from spec §4.4).

All kernels are templated over the scalar type in the C++ source
(`template <typename T>`), mirrored here by a `LinearOrderedField` parameter;
analytic statements instantiate it at `ℝ`.
-/

namespace Uipc

variable {K : Type} [LinearOrderedField K]

/-- Squared Euclidean norm of a 3-vector (`v.squaredNorm()` in Eigen). -/
def sq3 (x : Fin 3 → K) : K := ∑ i, x i ^ 2

/-- Dot product of two 3-vectors (`u.dot(v)` in Eigen). -/
def dot3 (x y : Fin 3 → K) : K := ∑ i, x i * y i

/-- Componentwise difference of two 3-vectors. -/
def vsub (a b : Fin 3 → K) : Fin 3 → K := fun i => a i - b i

/-- Modelled from the spec: body of `point_point_distance2`
(`details/point_point.inl` is not among the given sources; §4.1 fixes it as
the squared Euclidean distance, the sum of squared coordinate differences). -/
def pointPointDistance2 (a b : Fin 3 → K) : K := sq3 (vsub a b)

/-- Modelled from the spec: body of `point_point_distance2_gradient`
(§4.1: partial derivatives of `point_point_distance2` w.r.t. each coordinate,
concatenated in the fixed order: point `a` block then point `b` block).
The index `(β, i)` is block `β` (0 = `a`, 1 = `b`), coordinate `i`. -/
def pointPointDistance2Gradient (a b : Fin 3 → K) : Fin 2 × Fin 3 → K :=
  fun bc => ![fun i => 2 * (a i - b i), fun i => -2 * (a i - b i)] bc.1 bc.2

/-- Rank-structured block Hessian used by the distance kernels: entry
`((β,i),(γ,j)) = 2·cc β·cc γ·[i=j] - 2·(rr β i)·(rr γ j)/uu`.  Both the
point-point Hessian and every branch of the point-edge Hessian have this
shape, which makes symmetry structural. -/
def rankHess {B : Type} (cc : B → K) (rr : B → Fin 3 → K) (uu : K) :
    Matrix (B × Fin 3) (B × Fin 3) K :=
  Matrix.of fun b c =>
    2 * cc b.1 * cc c.1 * (if b.2 = c.2 then 1 else 0)
      - 2 * (rr b.1 b.2) * (rr c.1 c.2) / uu

/-- Modelled from the spec: body of `point_point_distance2_hessian`
(§4.1: second partial derivatives of `point_point_distance2`, blocks
`[[2I, -2I], [-2I, 2I]]`). -/
def pointPointDistance2Hessian (_a _b : Fin 3 → K) :
    Matrix (Fin 2 × Fin 3) (Fin 2 × Fin 3) K :=
  rankHess ![1, -1] (fun _ _ => 0) 1

/-- Modelled from the spec: body of `point_edge_distance2`
(`details/point_edge.inl` is not among the given sources; §4.1 fixes it as
the squared Euclidean distance from the point to the edge, and the
degenerate-input policy of §4.1 fixes the zero-length-edge branch to reduce
exactly to `point_point_distance2 (p, e0)`).  Writing `u = e1 - e0`,
`v = p - e0`, the closest parameter on the segment is `(u⬝v)/|u|²` clamped
to `[0,1]`, giving the three regions below. -/
def pointEdgeDistance2 (p e0 e1 : Fin 3 → K) : K :=
  let u := vsub e1 e0
  let v := vsub p e0
  if sq3 u = 0 then sq3 v
  else if dot3 u v ≤ 0 then sq3 v
  else if sq3 u ≤ dot3 u v then sq3 (vsub p e1)
  else sq3 v - (dot3 u v) ^ 2 / sq3 u

/-- Modelled from the spec: body of `point_edge_distance2_gradient`
(§4.1: partial derivatives of `point_edge_distance2` w.r.t. each coordinate,
concatenated in the fixed order point `p` / endpoint `e0` / endpoint `e1`;
§4.1 degenerate policy: at a zero-length edge the gradient is the
point-point gradient on `(p, e0)` with the remaining edge-direction
components zero).  The index `(β, i)` is block `β` (0 = `p`, 1 = `e0`,
2 = `e1`), coordinate `i`. -/
def pointEdgeDistance2Gradient (p e0 e1 : Fin 3 → K) : Fin 3 × Fin 3 → K :=
  let u := vsub e1 e0
  let v := vsub p e0
  if sq3 u = 0 then
    fun bc => ![fun i => 2 * v i, fun i => -2 * v i, fun _ => (0 : K)] bc.1 bc.2
  else if dot3 u v ≤ 0 then
    fun bc => ![fun i => 2 * v i, fun i => -2 * v i, fun _ => (0 : K)] bc.1 bc.2
  else if sq3 u ≤ dot3 u v then
    fun bc =>
      ![fun i => 2 * (p i - e1 i), fun _ => (0 : K),
        fun i => -2 * (p i - e1 i)] bc.1 bc.2
  else
    let s := dot3 u v / sq3 u
    let w := fun i => v i - s * u i
    fun bc =>
      ![fun i => 2 * w i, fun i => -2 * (1 - s) * w i,
        fun i => -2 * s * w i] bc.1 bc.2

/-- Modelled from the spec: body of `point_edge_distance2_hessian`
(§4.1: second partial derivatives of `point_edge_distance2`, symmetric by
construction; degenerate policy as for the gradient). -/
def pointEdgeDistance2Hessian (p e0 e1 : Fin 3 → K) :
    Matrix (Fin 3 × Fin 3) (Fin 3 × Fin 3) K :=
  let u := vsub e1 e0
  let v := vsub p e0
  if sq3 u = 0 then rankHess ![1, -1, 0] (fun _ _ => 0) 1
  else if dot3 u v ≤ 0 then rankHess ![1, -1, 0] (fun _ _ => 0) 1
  else if sq3 u ≤ dot3 u v then rankHess ![1, 0, -1] (fun _ _ => 0) 1
  else
    let s := dot3 u v / sq3 u
    let w := fun i => v i - s * u i
    rankHess ![1, -(1 - s), -s]
      ![u, fun i => -(w i + (1 - s) * u i), fun i => w i - s * u i] (sq3 u)

/-! ## Basic algebraic facts about the distance-kernel helpers -/

lemma sq3_expand (x : Fin 3 → K) : sq3 x = x 0 ^ 2 + x 1 ^ 2 + x 2 ^ 2 := by
  simp [sq3, Fin.sum_univ_three]

lemma dot3_expand (x y : Fin 3 → K) :
    dot3 x y = x 0 * y 0 + x 1 * y 1 + x 2 * y 2 := by
  simp [dot3, Fin.sum_univ_three]

lemma sq3_nonneg (x : Fin 3 → K) : 0 ≤ sq3 x :=
  Finset.sum_nonneg fun _ _ => sq_nonneg _

lemma sq3_eq_zero_iff (x : Fin 3 → K) : sq3 x = 0 ↔ ∀ i, x i = 0 := by
  rw [sq3, Finset.sum_eq_zero_iff_of_nonneg fun i _ => sq_nonneg (x i)]
  simp [pow_eq_zero_iff]

lemma sq3_vsub_eq_zero_iff (a b : Fin 3 → K) : sq3 (vsub a b) = 0 ↔ a = b := by
  rw [sq3_eq_zero_iff]
  constructor
  · intro h; funext i; have := h i; simpa [vsub, sub_eq_zero] using this
  · intro h; subst h; simp [vsub]

lemma sq3_pos_of_ne {a b : Fin 3 → K} (h : a ≠ b) : 0 < sq3 (vsub a b) :=
  lt_of_le_of_ne (sq3_nonneg _) fun h0 => h ((sq3_vsub_eq_zero_iff a b).mp h0.symm)

/-- Squared distance from `p` to the point of parameter `t` on the segment
`[e0, e1]`, expanded as a quadratic in `t`. -/
lemma pointOnSegment_dist2 (p e0 e1 : Fin 3 → K) (t : K) :
    pointPointDistance2 p (fun i => e0 i + t * (e1 i - e0 i)) =
      sq3 (vsub p e0) - 2 * t * dot3 (vsub e1 e0) (vsub p e0)
        + t ^ 2 * sq3 (vsub e1 e0) := by
  simp only [pointPointDistance2, sq3_expand, dot3_expand, vsub]
  ring

lemma dist2_vsub_e1 (p e0 e1 : Fin 3 → K) :
    sq3 (vsub p e1) = sq3 (vsub p e0) - 2 * dot3 (vsub e1 e0) (vsub p e0)
      + sq3 (vsub e1 e0) := by
  simp only [sq3_expand, dot3_expand, vsub]
  ring

/-- The rank-structured block Hessian is symmetric, whatever its data. -/
lemma rankHess_isSymm {B : Type} (cc : B → K) (rr : B → Fin 3 → K) (uu : K) :
    (rankHess cc rr uu).IsSymm := by
  rw [Matrix.IsSymm]
  ext ⟨β, i⟩ ⟨γ, j⟩
  simp only [Matrix.transpose_apply, rankHess, Matrix.of_apply]
  by_cases h : i = j
  · subst h; simp; ring
  · rw [if_neg h, if_neg fun hj => h hj.symm]; ring

/-- View a coordinate triple as a point of Euclidean 3-space. -/
def toE (a : Fin 3 → ℝ) : EuclideanSpace ℝ (Fin 3) := a

/-- C5.  `point_point_distance2` returns the squared Euclidean distance (the
sum of squared coordinate differences), never the unsquared distance; and
`point_edge_distance2` returns the squared Euclidean distance from the point
to the edge, i.e. the least squared distance from `p` to any point of the
segment `[e0, e1]`, attained on the segment.
Reason `spec-modelled`: the kernel bodies (`details/point_point.inl`,
`details/point_edge.inl`) are not among the given sources. -/
theorem claim_C5_distance2_squared_euclidean :
    (∀ a b : Fin 3 → ℝ,
      pointPointDistance2 a b = dist (toE a) (toE b) ^ 2) ∧
    (∀ p e0 e1 : Fin 3 → ℝ,
      IsLeast {d : ℝ | ∃ t ∈ Set.Icc (0 : ℝ) 1,
          d = pointPointDistance2 p (fun i => e0 i + t * (e1 i - e0 i))}
        (pointEdgeDistance2 p e0 e1)) := by
  constructor
  · intro a b
    rw [EuclideanSpace.dist_eq, Real.sq_sqrt (by positivity)]
    simp only [pointPointDistance2, sq3, vsub, toE, WithLp.equiv_symm_pi_apply,
      Real.dist_eq, sq_abs]
  · intro p e0 e1
    set u := vsub e1 e0 with hu
    set v := vsub p e0 with hv
    constructor
    · -- the kernel value is attained at a parameter in [0, 1]
      rw [pointEdgeDistance2]
      split_ifs with h1 h2 h3
      · exact ⟨0, by norm_num, by rw [pointOnSegment_dist2]; ring⟩
      · exact ⟨0, by norm_num, by rw [pointOnSegment_dist2]; ring⟩
      · refine ⟨1, by norm_num, ?_⟩
        rw [pointOnSegment_dist2, dist2_vsub_e1 p e0 e1]
        ring
      · have huu : 0 < sq3 u := lt_of_le_of_ne (sq3_nonneg u) (Ne.symm h1)
        push_neg at h2 h3
        refine ⟨dot3 u v / sq3 u,
          ⟨div_nonneg h2.le huu.le, (div_le_one huu).mpr h3.le⟩, ?_⟩
        rw [pointOnSegment_dist2]
        field_simp
        ring
    · -- the kernel value is a lower bound over the whole segment
      rintro d ⟨t, ⟨ht0, ht1⟩, rfl⟩
      rw [pointOnSegment_dist2, pointEdgeDistance2]
      split_ifs with h1 h2 h3
      · have huv : dot3 u v = 0 := by
          have hz := (sq3_eq_zero_iff u).mp h1
          simp [dot3, hz]
        rw [← hu, ← hv, h1, huv]; ring_nf; simp
      · have hA : 0 ≤ -(2 * t * dot3 u v) := by
          have := mul_nonneg ht0 (neg_nonneg.mpr h2)
          nlinarith
        nlinarith [mul_nonneg (mul_nonneg ht0 ht0) (sq3_nonneg u)]
      · push_neg at h2
        rw [dist2_vsub_e1 p e0 e1, ← hu, ← hv]
        have hfac : 0 ≤ (1 - t) * (2 * dot3 u v - (1 + t) * sq3 u) := by
          apply mul_nonneg (by linarith)
          nlinarith [sq3_nonneg u]
        nlinarith
      · have huu : 0 < sq3 u := lt_of_le_of_ne (sq3_nonneg u) (Ne.symm h1)
        have h5 : sq3 v - 2 * t * dot3 u v + t ^ 2 * sq3 u
            - (sq3 v - dot3 u v ^ 2 / sq3 u)
            = (t * sq3 u - dot3 u v) ^ 2 / sq3 u := by
          field_simp
          ring
        have h6 : 0 ≤ (t * sq3 u - dot3 u v) ^ 2 / sq3 u :=
          div_nonneg (sq_nonneg _) huu.le
        linarith

/-- C9.  `point_point_distance2` is symmetric in its two arguments, and the
gradient blocks for swapped arguments are the sign-negated, block-permuted
gradient blocks of the original call.
Reason `spec-modelled`: the kernel bodies are not among the given sources. -/
theorem claim_C9_point_point_symmetry :
    (∀ a b : Fin 3 → ℝ, pointPointDistance2 a b = pointPointDistance2 b a) ∧
    (∀ (a b : Fin 3 → ℝ) (β : Fin 2) (i : Fin 3),
      pointPointDistance2Gradient b a (β, i) =
        pointPointDistance2Gradient a b (![1, 0] β, i) ∧
      pointPointDistance2Gradient a b (1, i) =
        -pointPointDistance2Gradient a b (0, i)) := by
  constructor
  · intro a b
    simp only [pointPointDistance2, sq3_expand, vsub]
    ring
  · intro a b β i
    refine ⟨?_, by simp [pointPointDistance2Gradient]; try ring⟩
    fin_cases β <;> simp [pointPointDistance2Gradient] <;> try ring

lemma sq3_vsub_self (e : Fin 3 → K) : sq3 (vsub e e) = 0 := by
  simp [sq3, vsub]

/-- C2.  On a zero-length edge (`e0 = e1 = e`) the `point_edge_distance2`
family reduces exactly to the `point_point_distance2` family on `(p, e)`:
same value, the gradient is the point-point gradient with the remaining
edge-direction block zero, and the Hessian is the point-point Hessian in the
leading `6×6` block with all remaining entries zero.
Reason `spec-modelled`: the kernel bodies are not among the given sources. -/
theorem claim_C2_zero_length_edge_reduction :
    ∀ p e : Fin 3 → ℝ,
      pointEdgeDistance2 p e e = pointPointDistance2 p e ∧
      (∀ i : Fin 3,
        pointEdgeDistance2Gradient p e e (0, i) =
          pointPointDistance2Gradient p e (0, i) ∧
        pointEdgeDistance2Gradient p e e (1, i) =
          pointPointDistance2Gradient p e (1, i) ∧
        pointEdgeDistance2Gradient p e e (2, i) = 0) ∧
      (∀ (β γ : Fin 2) (i j : Fin 3),
        pointEdgeDistance2Hessian p e e (β.castSucc, i) (γ.castSucc, j) =
          pointPointDistance2Hessian p e (β, i) (γ, j)) ∧
      (∀ k l : Fin 3 × Fin 3, k.1 = 2 ∨ l.1 = 2 →
        pointEdgeDistance2Hessian p e e k l = 0) := by
  intro p e
  have hz : sq3 (vsub e e) = 0 := sq3_vsub_self e
  refine ⟨?_, ?_, ?_, ?_⟩
  · rw [pointEdgeDistance2, if_pos hz, pointPointDistance2]
  · intro i
    rw [pointEdgeDistance2Gradient]
    refine ⟨?_, ?_, ?_⟩ <;> simp [hz, pointPointDistance2Gradient, vsub]
  · intro β γ i j
    rw [pointEdgeDistance2Hessian]
    simp only [hz, if_pos]
    fin_cases β <;> fin_cases γ <;>
      simp [rankHess, pointPointDistance2Hessian]
  · rintro ⟨β, i⟩ ⟨γ, j⟩ h
    rw [pointEdgeDistance2Hessian]
    simp only [hz, if_pos]
    rcases h with h | h <;> simp_all [rankHess]

/-! ## ContactCoeff

Embedded from `src/backends/cuda_al/contact_system/contact_coeff.h`: a plain
class with two public `Float` members initialised to `0.0`, no constructor
logic and no validation (`Float` is the backend's double-precision scalar,
modelled by `ℝ`). -/

/-- `class ContactCoeff { Float kappa = 0.0; Float mu = 0.0; }`. -/
structure ContactCoeff where
  /-- normal stiffness (`Float kappa = 0.0`) -/
  kappa : ℝ := 0
  /-- friction coefficient (`Float mu = 0.0`) -/
  mu : ℝ := 0

/-- A default-constructed `ContactCoeff`, i.e. `ContactCoeff{}` in C++:
both members take their in-class initialisers. -/
def ContactCoeff.defaultCoeff : ContactCoeff := {}

/-- C3 counterexample.  A `ContactCoeff` with `kappa < 0` and `mu` outside
`[0,1]` is constructed without any failure: aggregate initialisation stores
the out-of-range values verbatim, so such a coefficient is produced. -/
theorem claim_C3_counterexample :
    (ContactCoeff.mk (-1) 2).kappa < 0 ∧
      ¬(0 ≤ (ContactCoeff.mk (-1) 2).mu ∧ (ContactCoeff.mk (-1) 2).mu ≤ 1) := by
  refine ⟨by norm_num, ?_⟩
  rintro ⟨-, h⟩
  norm_num at h

/-- C3 (amended).  Constructing a `ContactCoeff` never fails and performs no
range validation: for every `kappa` and `mu`, including `kappa < 0` and `mu`
outside `[0,1]`, construction succeeds and stores the given values
unchanged. -/
theorem claim_C3_no_construction_validation :
    ∀ k m : ℝ, (ContactCoeff.mk k m).kappa = k ∧ (ContactCoeff.mk k m).mu = m :=
  fun _ _ => ⟨rfl, rfl⟩

/-- C10.  A default-constructed `ContactCoeff` has `kappa = 0.0` and
`mu = 0.0`, so any barrier term scaled by its `kappa` and any friction bound
scaled by its `mu` vanish: an unconfigured contact pair contributes zero
barrier stiffness and zero friction. -/
theorem claim_C10_default_contact_coeff_zero :
    ContactCoeff.defaultCoeff.kappa = 0 ∧ ContactCoeff.defaultCoeff.mu = 0 ∧
      (∀ barrier : ℝ, ContactCoeff.defaultCoeff.kappa * barrier = 0) ∧
      (∀ normalForce : ℝ, ContactCoeff.defaultCoeff.mu * normalForce = 0) := by
  refine ⟨rfl, rfl, fun b => ?_, fun n => ?_⟩ <;>
    simp [ContactCoeff.defaultCoeff]

/-! ## AnimationFilter

`FiniteElementAnimator::FilteredInfo::for_each`
(`finite_element_animator.inl`) forwards to `FiniteElementMethod::_for_each`,
whose definition is not among the given sources; the filtered iteration is
modelled from spec §4.4: walk the per-element flag sequence in order and
apply the supplied action exactly to the flagged entries. -/

/-- Modelled from the spec: the list of indices the filtered iteration
visits, starting the index count at `n` (§4.4: "visits exactly the flagged
subset, in the same relative order as the input sequence"). -/
def animVisitAux : ℕ → List Bool → List ℕ
  | _, [] => []
  | n, f :: rest =>
    if f then n :: animVisitAux (n + 1) rest else animVisitAux (n + 1) rest

/-- Indices visited by `FilteredInfo::for_each` on a flag sequence. -/
def animVisit (flags : List Bool) : List ℕ := animVisitAux 0 flags

/-- Modelled from the spec: `FilteredInfo::for_each` itself — fold the
supplied action over the sequence, applying it only at flagged entries
(`FiniteElementMethod::_for_each` is not among the given sources). -/
def animForEachAux {α : Type} (action : ℕ → α → α) :
    ℕ → List Bool → α → α
  | _, [], acc => acc
  | n, f :: rest, acc =>
    animForEachAux action (n + 1) rest (if f then action n acc else acc)

/-- `FilteredInfo::for_each` over a whole flag sequence. -/
def animForEach {α : Type} (flags : List Bool) (action : ℕ → α → α)
    (init : α) : α :=
  animForEachAux action 0 flags init

lemma animForEachAux_eq_foldl {α : Type} (action : ℕ → α → α) :
    ∀ (flags : List Bool) (n : ℕ) (acc : α),
      animForEachAux action n flags acc =
        (animVisitAux n flags).foldl (fun a i => action i a) acc := by
  intro flags
  induction flags with
  | nil => intro n acc; rfl
  | cons f rest ih =>
    intro n acc
    cases f <;> simp [animForEachAux, animVisitAux, ih]

lemma animVisitAux_mem :
    ∀ (flags : List Bool) (n i : ℕ),
      i ∈ animVisitAux n flags ↔
        ∃ j, ∃ h : j < flags.length, flags.get ⟨j, h⟩ = true ∧ i = n + j := by
  intro flags
  induction flags with
  | nil => simp [animVisitAux]
  | cons f rest ih =>
    intro n i
    cases f <;>
      simp only [animVisitAux, if_true, if_false, Bool.false_eq_true,
        List.mem_cons, ih (n + 1) i]
    · constructor
      · rintro ⟨j, hj, hget, rfl⟩
        exact ⟨j + 1, by simpa using hj, by simpa using hget, by omega⟩
      · rintro ⟨j, hj, hget, rfl⟩
        cases j with
        | zero => simp at hget
        | succ j =>
          exact ⟨j, by simpa using hj, by simpa using hget, by omega⟩
    · constructor
      · rintro (rfl | ⟨j, hj, hget, rfl⟩)
        · exact ⟨0, by simp, by simp⟩
        · exact ⟨j + 1, by simpa using hj, by simpa using hget, by omega⟩
      · rintro ⟨j, hj, hget, rfl⟩
        cases j with
        | zero => left; omega
        | succ j =>
          right
          exact ⟨j, by simpa using hj, by simpa using hget, by omega⟩

lemma animVisitAux_lower :
    ∀ (flags : List Bool) (n : ℕ), ∀ i ∈ animVisitAux n flags, n ≤ i := by
  intro flags
  induction flags with
  | nil => simp [animVisitAux]
  | cons f rest ih =>
    intro n i hi
    cases f <;>
      simp only [animVisitAux, if_true, if_false, Bool.false_eq_true] at hi
    · have := ih (n + 1) i hi; omega
    · rcases List.mem_cons.mp hi with rfl | hi
      · exact le_rfl
      · have := ih (n + 1) i hi; omega

lemma animVisitAux_sorted :
    ∀ (flags : List Bool) (n : ℕ),
      (animVisitAux n flags).Sorted (· < ·) := by
  intro flags
  induction flags with
  | nil => intro n; simp [animVisitAux]
  | cons f rest ih =>
    intro n
    cases f <;>
      simp only [animVisitAux, if_true, if_false, Bool.false_eq_true]
    · exact ih (n + 1)
    · refine List.sorted_cons.mpr ⟨?_, ih (n + 1)⟩
      intro b hb
      have := animVisitAux_lower rest (n + 1) b hb
      omega

/-- C4.  The filtered iteration of `FilteredInfo::for_each` applies the
action to exactly the flagged entries of the input flag sequence, each
exactly once, in the same relative order as the input sequence (the visited
index list is strictly increasing, hence duplicate-free), and — being a pure
fold — mutates neither the flags nor the positions it reads.
Reason `spec-modelled`: `FiniteElementMethod::_for_each` is not among the
given sources. -/
theorem claim_C4_filtered_iteration {α : Type} :
    ∀ (flags : List Bool) (action : ℕ → α → α) (init : α),
      animForEach flags action init =
        (animVisit flags).foldl (fun a i => action i a) init ∧
      (∀ i, i ∈ animVisit flags ↔
        ∃ h : i < flags.length, flags.get ⟨i, h⟩ = true) ∧
      (animVisit flags).Sorted (· < ·) ∧
      (animVisit flags).Nodup := by
  intro flags action init
  refine ⟨animForEachAux_eq_foldl action flags 0 init, ?_, ?_, ?_⟩
  · intro i
    rw [animVisit, animVisitAux_mem flags 0 i]
    constructor
    · rintro ⟨j, hj, hget, rfl⟩
      simpa using ⟨hj, hget⟩
    · rintro ⟨h, hget⟩
      exact ⟨i, h, hget, by omega⟩
  · exact animVisitAux_sorted flags 0
  · exact (animVisitAux_sorted flags 0).nodup

/-! ## ConstitutiveKernels: stable Neo-Hookean (3D)

`stable_neo_hookean_3d_function.h` textually includes the symbolically
generated kernel body `detail/stable_neo_hookean_3d.inl`, which is not among
the given sources.  The kernel is modelled from spec §4.2: a stabilized
Neo-Hookean law (Smith et al. style), polynomial in the deformation gradient
`F` (hence finite through inversion), with energy and gradient zero at the
identity and a positive semi-definite Hessian there for every valid
parameter pair.  With `I_C = ∑ F_ij²`, `J = det F` and `α = 1 + μ/λ`:
`Ψ = μ/2 (I_C − 3) + λ/2 (J − α)² − μ²/(2λ)`.
The volumetric parameter is the reparametrized `λ = λ_lamé + μ` of the
stable formulation ("Lamé-type parameters", spec §3), which is what makes
the rest-state Hessian PSD for every Poisson ratio in `[0, 1/2)`. -/

/-- Determinant of the 3×3 deformation gradient. -/
def det3 (F : Matrix (Fin 3) (Fin 3) K) : K := F.det

/-- Cofactor matrix entry of a 3×3 matrix: `∂ det F / ∂ F i j`, written with
cyclic index shifts (which absorb the checkerboard sign). -/
def cof3 (F : Matrix (Fin 3) (Fin 3) K) (i j : Fin 3) : K :=
  F (i + 1) (j + 1) * F (i + 2) (j + 2) - F (i + 1) (j + 2) * F (i + 2) (j + 1)

/-- Levi-Civita symbol on `Fin 3`. -/
def lc (i j k : Fin 3) : ℤ :=
  if (i, j, k) = (0, 1, 2) ∨ (i, j, k) = (1, 2, 0) ∨ (i, j, k) = (2, 0, 1)
    then 1
  else if (i, j, k) = (2, 1, 0) ∨ (i, j, k) = (1, 0, 2) ∨ (i, j, k) = (0, 2, 1)
    then -1
  else 0

/-- Levi-Civita symbol cast into the scalar field. -/
def lcK (i j k : Fin 3) : K := ((lc i j k : ℤ) : K)

/-- Second partial derivative `∂² det F / ∂F_ij ∂F_kl = ε_ikm ε_jln F_mn`. -/
def det3SecondDeriv (F : Matrix (Fin 3) (Fin 3) K) (i j k l : Fin 3) : K :=
  ∑ m, ∑ n, lcK i k m * lcK j l n * F m n

/-- Modelled from the spec: `stable_neo_hookean_3d` energy density
(`detail/stable_neo_hookean_3d.inl` is not among the given sources). -/
def stableNeoHookean3dEnergy (mu lam : K) (F : Matrix (Fin 3) (Fin 3) K) : K :=
  mu / 2 * ((∑ i, ∑ j, F i j ^ 2) - 3)
    + lam / 2 * (det3 F - (1 + mu / lam)) ^ 2 - mu ^ 2 / (2 * lam)

/-- Modelled from the spec: `stable_neo_hookean_3d` energy gradient, the
9-component vector of partial derivatives of the energy density w.r.t. each
entry of `F` (spec §4.2). -/
def stableNeoHookean3dGradient (mu lam : K) (F : Matrix (Fin 3) (Fin 3) K) :
    Fin 3 × Fin 3 → K :=
  fun ij => mu * F ij.1 ij.2
    + lam * (det3 F - (1 + mu / lam)) * cof3 F ij.1 ij.2

/-- Modelled from the spec: `stable_neo_hookean_3d` energy Hessian, the 9×9
matrix of second partial derivatives of the energy density (spec §4.2). -/
def stableNeoHookean3dHessian (mu lam : K) (F : Matrix (Fin 3) (Fin 3) K) :
    Matrix (Fin 3 × Fin 3) (Fin 3 × Fin 3) K :=
  Matrix.of fun ij kl =>
    mu * (if ij = kl then 1 else 0)
      + lam * cof3 F ij.1 ij.2 * cof3 F kl.1 kl.2
      + lam * (det3 F - (1 + mu / lam))
          * det3SecondDeriv F ij.1 ij.2 kl.1 kl.2

/-- Modelled from the spec: the element-creation step that converts a
Young's modulus and Poisson ratio into the two stiffness parameters consumed
by the constitutive kernel (spec §6; this conversion is performed by code
outside the given sources).  `μ = E/(2(1+ν))` is the shear term and the
volumetric term is the stable-Neo-Hookean reparametrization
`λ = λ_lamé + μ = Eν/((1+ν)(1−2ν)) + E/(2(1+ν))`. -/
def lameParameters (E nu : K) : K × K :=
  (E / (2 * (1 + nu)),
    E * nu / ((1 + nu) * (1 - 2 * nu)) + E / (2 * (1 + nu)))

/-- A parameter pair is valid when it is produced by `lameParameters` from a
positive Young's modulus and a Poisson ratio in `[0, 1/2)` (spec §3: Poisson
ratio ≥ 1/2 is rejected at construction; spec §7: negative stiffness is
rejected at construction). -/
def ValidSnhParams (mu lam : K) : Prop :=
  ∃ E nu : K, 0 < E ∧ 0 ≤ nu ∧ nu < 1 / 2 ∧ lameParameters E nu = (mu, lam)

lemma validSnhParams_bounds {mu lam : K} (h : ValidSnhParams mu lam) :
    0 < mu ∧ mu ≤ lam := by
  obtain ⟨E, nu, hE, hnu0, hnu1, hpair⟩ := h
  rw [lameParameters, Prod.mk.injEq] at hpair
  obtain ⟨hmu, hlam⟩ := hpair
  have h1 : (0 : K) < 1 + nu := by linarith
  have h2 : (0 : K) < 1 - 2 * nu := by linarith
  constructor
  · rw [← hmu]; positivity
  · rw [← hmu, ← hlam]
    have : 0 ≤ E * nu / ((1 + nu) * (1 - 2 * nu)) := by positivity
    linarith

lemma sum_sq_one :
    (∑ i, ∑ j, ((1 : Matrix (Fin 3) (Fin 3) K) i j) ^ 2) = 3 := by
  simp [Fin.sum_univ_three, Matrix.one_apply]

lemma cof3_one (i j : Fin 3) :
    cof3 (1 : Matrix (Fin 3) (Fin 3) K) i j = if i = j then 1 else 0 := by
  fin_cases i <;> fin_cases j <;> simp [cof3, Matrix.one_apply]

/-- C6.  For every valid material parameter set, the stable Neo-Hookean
energy density vanishes at the identity deformation gradient and its
gradient there is the zero 9-component vector.
Reason `spec-modelled`: the symbolically generated kernel body is not among
the given sources. -/
theorem claim_C6_rest_state_energy_and_gradient :
    ∀ mu lam : ℝ, ValidSnhParams mu lam →
      stableNeoHookean3dEnergy mu lam 1 = 0 ∧
      stableNeoHookean3dGradient mu lam 1 = 0 := by
  intro mu lam hvalid
  obtain ⟨hmu, hml⟩ := validSnhParams_bounds hvalid
  have hlam : lam ≠ 0 := by linarith
  constructor
  · rw [stableNeoHookean3dEnergy, sum_sq_one, det3, Matrix.det_one]
    field_simp
    ring
  · funext ij
    obtain ⟨i, j⟩ := ij
    simp only [stableNeoHookean3dGradient, det3, Matrix.det_one, cof3_one,
      Matrix.one_apply, Pi.zero_apply]
    by_cases h : i = j
    · simp only [h, if_pos rfl]
      field_simp
      ring
    · simp [h]

/-- C6 witness at the concrete valid parameters produced by
`lameParameters 1 0 = (1/2, 1/2)`. -/
theorem claim_C6_witness :
    stableNeoHookean3dEnergy ((1 : ℝ) / 2) ((1 : ℝ) / 2) 1 = 0 ∧
      stableNeoHookean3dGradient ((1 : ℝ) / 2) ((1 : ℝ) / 2) 1 = 0 :=
  claim_C6_rest_state_energy_and_gradient ((1 : ℝ) / 2) ((1 : ℝ) / 2)
    ⟨1, 0, by norm_num, by norm_num, by norm_num, by norm_num [lameParameters]⟩

lemma lc_swap_left (i j k : Fin 3) : lc j i k = -lc i j k := by
  revert i j k; decide

lemma lcK_swap_left (i j k : Fin 3) :
    lcK (K := K) j i k = -lcK i j k := by
  rw [lcK, lcK, lc_swap_left, Int.cast_neg]

lemma lc_contract (i j k l : Fin 3) :
    (∑ m, lc i k m * lc j l m) =
      (if i = j then 1 else 0) * (if k = l then 1 else 0)
        - (if i = l then 1 else 0) * (if j = k then 1 else 0) := by
  revert i j k l; decide

lemma lcK_contract (i j k l : Fin 3) :
    (∑ m, lcK (K := K) i k m * lcK j l m) =
      (if i = j then (1 : K) else 0) * (if k = l then 1 else 0)
        - (if i = l then 1 else 0) * (if j = k then 1 else 0) := by
  have h : ((∑ m, lc i k m * lc j l m : ℤ) : K) =
      ∑ m, lcK (K := K) i k m * lcK j l m := by
    push_cast [lcK]
    rfl
  rw [← h, lc_contract]
  push_cast
  simp [apply_ite (fun z : ℤ => (z : K))]

lemma det3SecondDeriv_symm (F : Matrix (Fin 3) (Fin 3) K) (i j k l : Fin 3) :
    det3SecondDeriv F k l i j = det3SecondDeriv F i j k l := by
  rw [det3SecondDeriv, det3SecondDeriv]
  refine Finset.sum_congr rfl fun m _ => Finset.sum_congr rfl fun n _ => ?_
  rw [lcK_swap_left k i m, lcK_swap_left l j n]
  ring

lemma snhHessian_isSymm (mu lam : K) (F : Matrix (Fin 3) (Fin 3) K) :
    (stableNeoHookean3dHessian mu lam F).IsSymm := by
  rw [Matrix.IsSymm]
  ext ij kl
  simp only [Matrix.transpose_apply, stableNeoHookean3dHessian, Matrix.of_apply]
  rw [det3SecondDeriv_symm]
  have hswap : (if kl = ij then (1 : K) else 0) = if ij = kl then 1 else 0 := by
    by_cases h : ij = kl
    · simp [h]
    · rw [if_neg h, if_neg fun hk => h hk.symm]
  rw [hswap]
  ring

lemma det3SecondDeriv_one (i j k l : Fin 3) :
    det3SecondDeriv (1 : Matrix (Fin 3) (Fin 3) K) i j k l =
      (if i = j then (1 : K) else 0) * (if k = l then 1 else 0)
        - (if i = l then 1 else 0) * (if j = k then 1 else 0) := by
  rw [det3SecondDeriv, ← lcK_contract]
  refine Finset.sum_congr rfl fun m _ => ?_
  simp [Matrix.one_apply, mul_ite, mul_one, mul_zero, Finset.sum_ite_eq]

lemma snhHessian_one_apply (mu lam : K) (hlam : lam ≠ 0)
    (ij kl : Fin 3 × Fin 3) :
    stableNeoHookean3dHessian mu lam 1 ij kl =
      mu * (if ij = kl then 1 else 0)
        + (lam - mu) * ((if ij.1 = ij.2 then 1 else 0)
            * (if kl.1 = kl.2 then 1 else 0))
        + mu * ((if ij.1 = kl.2 then 1 else 0)
            * (if ij.2 = kl.1 then 1 else 0)) := by
  rw [stableNeoHookean3dHessian, Matrix.of_apply, det3, Matrix.det_one,
    cof3_one, cof3_one, det3SecondDeriv_one]
  have hfac : lam * (1 - (1 + mu / lam)) = -mu := by
    field_simp
    ring
  rw [mul_sub, ← mul_assoc, ← mul_assoc, hfac]
  ring

lemma snhHessian_one_mulVec (mu lam : K) (hlam : lam ≠ 0)
    (x : Fin 3 × Fin 3 → K) :
    (stableNeoHookean3dHessian mu lam 1).mulVec x =
      fun ij => mu * x ij
        + (lam - mu) * (if ij.1 = ij.2 then 1 else 0)
            * (x (0, 0) + x (1, 1) + x (2, 2))
        + mu * x (ij.2, ij.1) := by
  funext ij
  rw [Matrix.mulVec, Matrix.dotProduct]
  simp only [snhHessian_one_apply mu lam hlam]
  rw [Fintype.sum_prod_type]
  obtain ⟨i, j⟩ := ij
  fin_cases i <;> fin_cases j <;>
    simp [Fin.sum_univ_three, Prod.ext_iff] <;> ring

/-- C7.  For every valid material parameter set, the stable Neo-Hookean
energy Hessian at the identity deformation gradient is positive
semi-definite (no negative eigenvalue).
Reason `spec-modelled`: the symbolically generated kernel body is not among
the given sources. -/
theorem claim_C7_rest_state_hessian_psd :
    ∀ mu lam : ℝ, ValidSnhParams mu lam →
      (stableNeoHookean3dHessian mu lam 1).PosSemidef := by
  intro mu lam hvalid
  obtain ⟨hmu, hml⟩ := validSnhParams_bounds hvalid
  have hlam : lam ≠ 0 := by linarith
  constructor
  · rw [Matrix.IsHermitian, Matrix.conjTranspose_eq_transpose_of_trivial]
    exact snhHessian_isSymm mu lam 1
  · intro x
    rw [snhHessian_one_mulVec mu lam hlam x]
    simp only [star_trivial, Matrix.dotProduct, Fintype.sum_prod_type,
      Fin.sum_univ_three, Prod.ext_iff]
    norm_num
    simp only [if_neg (show ¬(0 : Fin 3) = 2 by decide),
      if_neg (show ¬(1 : Fin 3) = 2 by decide),
      if_neg (show ¬(2 : Fin 3) = 0 by decide),
      if_neg (show ¬(2 : Fin 3) = 1 by decide), add_zero]
    nlinarith [mul_nonneg (sub_nonneg.mpr hml)
        (sq_nonneg (x 0 + x 1 + x (2, 2))),
      mul_nonneg hmu.le (sq_nonneg (x (0, 1) + x (1, 0))),
      mul_nonneg hmu.le (sq_nonneg (x (0, 2) + x (2, 0))),
      mul_nonneg hmu.le (sq_nonneg (x (1, 2) + x (2, 1))),
      mul_nonneg hmu.le (sq_nonneg (x 0)),
      mul_nonneg hmu.le (sq_nonneg (x 1)),
      mul_nonneg hmu.le (sq_nonneg (x (2, 2)))]

/-- C7 witness at the concrete valid parameters produced by
`lameParameters 1 0 = (1/2, 1/2)`. -/
theorem claim_C7_witness :
    (stableNeoHookean3dHessian ((1 : ℝ) / 2) ((1 : ℝ) / 2) 1).PosSemidef :=
  claim_C7_rest_state_hessian_psd ((1 : ℝ) / 2) ((1 : ℝ) / 2)
    ⟨1, 0, by norm_num, by norm_num, by norm_num, by norm_num [lameParameters]⟩

/-- C8.  Every Hessian returned by the kernels — `point_point_distance2_hessian`,
`point_edge_distance2_hessian` and the stable Neo-Hookean energy Hessian —
is a symmetric matrix, for all inputs.
Reason `spec-modelled`: the distance and constitutive kernel bodies are not
among the given sources. -/
theorem claim_C8_hessians_symmetric :
    (∀ a b : Fin 3 → ℝ, (pointPointDistance2Hessian a b).IsSymm) ∧
    (∀ p e0 e1 : Fin 3 → ℝ, (pointEdgeDistance2Hessian p e0 e1).IsSymm) ∧
    (∀ (mu lam : ℝ) (F : Matrix (Fin 3) (Fin 3) ℝ),
      (stableNeoHookean3dHessian mu lam F).IsSymm) := by
  refine ⟨fun a b => rankHess_isSymm _ _ _, fun p e0 e1 => ?_,
    fun mu lam F => snhHessian_isSymm mu lam F⟩
  rw [pointEdgeDistance2Hessian]
  split_ifs <;> apply rankHess_isSymm

/-! ## C1: the gradient kernels are the exact partial derivatives

Machinery: every coordinate slice of a kernel is its value along an affine
path `t ↦ x + t·d`; we differentiate the three scalar building blocks
(`sq3`, `dot3`, and their quotient) along such paths and glue the piecewise
branches of the point-edge kernel at the region boundaries. -/

/-- The affine path `t ↦ c + t·d` through a coordinate triple. -/
def aff (c d : Fin 3 → ℝ) (t : ℝ) : Fin 3 → ℝ := fun i => c i + t * d i

lemma vsub_aff (a b da db : Fin 3 → ℝ) (t : ℝ) :
    vsub (aff a da t) (aff b db t) = aff (vsub a b) (vsub da db) t := by
  funext i
  simp only [aff, vsub]
  ring

lemma hasDerivAt_sq3_aff (c d : Fin 3 → ℝ) (t0 : ℝ) :
    HasDerivAt (fun t => sq3 (aff c d t)) (2 * dot3 (aff c d t0) d) t0 := by
  have h : ∀ i : Fin 3, HasDerivAt (fun t => (c i + t * d i) ^ 2)
      (2 * (c i + t0 * d i) * d i) t0 := by
    intro i
    have h1 : HasDerivAt (fun t : ℝ => c i + t * d i) (d i) t0 := by
      simpa using ((hasDerivAt_id t0).mul_const (d i)).const_add (c i)
    simpa using h1.pow 2
  have hsum : HasDerivAt (fun t => ∑ i : Fin 3, (c i + t * d i) ^ 2)
      (∑ i : Fin 3, 2 * (c i + t0 * d i) * d i) t0 :=
    HasDerivAt.sum fun i _ => h i
  have hfun : (fun t => sq3 (aff c d t)) =
      fun t => ∑ i : Fin 3, (c i + t * d i) ^ 2 := rfl
  rw [hfun]
  have hval : (∑ i : Fin 3, 2 * (c i + t0 * d i) * d i) =
      2 * dot3 (aff c d t0) d := by
    rw [dot3, Finset.mul_sum]
    refine Finset.sum_congr rfl fun i _ => ?_
    simp only [aff]
    ring
  rw [← hval]
  exact hsum

lemma hasDerivAt_dot3_aff (c d e f : Fin 3 → ℝ) (t0 : ℝ) :
    HasDerivAt (fun t => dot3 (aff c d t) (aff e f t))
      (dot3 (aff c d t0) f + dot3 d (aff e f t0)) t0 := by
  have h : ∀ i : Fin 3, HasDerivAt (fun t => (c i + t * d i) * (e i + t * f i))
      ((c i + t0 * d i) * f i + d i * (e i + t0 * f i)) t0 := by
    intro i
    have h1 : HasDerivAt (fun t : ℝ => c i + t * d i) (d i) t0 := by
      simpa using ((hasDerivAt_id t0).mul_const (d i)).const_add (c i)
    have h2 : HasDerivAt (fun t : ℝ => e i + t * f i) (f i) t0 := by
      simpa using ((hasDerivAt_id t0).mul_const (f i)).const_add (e i)
    have := h1.mul h2
    convert this using 1
    ring
  have hsum : HasDerivAt
      (fun t => ∑ i : Fin 3, (c i + t * d i) * (e i + t * f i))
      (∑ i : Fin 3, ((c i + t0 * d i) * f i + d i * (e i + t0 * f i))) t0 :=
    HasDerivAt.sum fun i _ => h i
  have hfun : (fun t => dot3 (aff c d t) (aff e f t)) =
      fun t => ∑ i : Fin 3, (c i + t * d i) * (e i + t * f i) := rfl
  rw [hfun]
  have hval : (∑ i : Fin 3, ((c i + t0 * d i) * f i + d i * (e i + t0 * f i)))
      = dot3 (aff c d t0) f + dot3 d (aff e f t0) := by
    rw [dot3, dot3, ← Finset.sum_add_distrib]
    refine Finset.sum_congr rfl fun i _ => ?_
    simp only [aff]
  rw [← hval]
  exact hsum

/-- Gluing: a function that eventually agrees with one of two branches, both
differentiable at `t0` with the same derivative and the same value as `f`
there, is differentiable at `t0` with that derivative. -/
lemma hasDerivAt_of_two_branches {f g1 g2 : ℝ → ℝ} {d t0 : ℝ}
    (h1 : HasDerivAt g1 d t0) (h2 : HasDerivAt g2 d t0)
    (e1 : g1 t0 = f t0) (e2 : g2 t0 = f t0)
    (hev : ∀ᶠ t in nhds t0, f t = g1 t ∨ f t = g2 t) :
    HasDerivAt f d t0 := by
  rw [hasDerivAt_iff_isLittleO] at h1 h2 ⊢
  rw [Asymptotics.isLittleO_iff] at h1 h2 ⊢
  intro c hc
  filter_upwards [h1 hc, h2 hc, hev] with t ht1 ht2 hor
  rcases hor with h | h
  · rw [h, ← e1]
    exact ht1
  · rw [h, ← e2]
    exact ht2
/-- Pairing of the point-edge gradient with a direction triple
`(dp, de0, de1)`: the directional derivative the gradient encodes. -/
def gradDot (p e0 e1 dp de0 de1 : Fin 3 → K) : K :=
  (∑ i, pointEdgeDistance2Gradient p e0 e1 (0, i) * dp i)
    + (∑ i, pointEdgeDistance2Gradient p e0 e1 (1, i) * de0 i)
    + (∑ i, pointEdgeDistance2Gradient p e0 e1 (2, i) * de1 i)

lemma vsub_apply (a b : Fin 3 → K) (i : Fin 3) : vsub a b i = a i - b i := rfl

lemma dot3_vsub_right (x a b : Fin 3 → K) :
    dot3 x (vsub a b) = dot3 x a - dot3 x b := by
  simp only [dot3_expand, vsub_apply]
  ring

lemma dot3_vsub_left (a b x : Fin 3 → K) :
    dot3 (vsub a b) x = dot3 x a - dot3 x b := by
  simp only [dot3_expand, vsub_apply]
  ring

lemma aff_sub_apply (a da b db : Fin 3 → ℝ) (t : ℝ) (i : Fin 3) :
    aff a da t i - aff b db t i = aff (vsub a b) (vsub da db) t i := by
  simp only [aff, vsub]
  ring

lemma dot3_aff_split (p e0 e1 dp de0 de1 x : Fin 3 → ℝ) (t : ℝ) :
    dot3 (aff (vsub p e1) (vsub dp de1) t) x =
      dot3 (aff (vsub p e0) (vsub dp de0) t) x
        - dot3 (aff (vsub e1 e0) (vsub de1 de0) t) x := by
  simp only [dot3_expand, aff, vsub]
  ring

lemma gradDot_end0_fold (x dp de0 de1 : Fin 3 → ℝ) :
    ((∑ i, 2 * x i * dp i) + (∑ i, -2 * x i * de0 i)
      + (∑ i, (0 : ℝ) * de1 i)) =
      2 * dot3 x dp - 2 * dot3 x de0 := by
  simp only [dot3_expand, Fin.sum_univ_three]
  ring

lemma gradDot_end1_fold (x dp de0 de1 : Fin 3 → ℝ) :
    ((∑ i, 2 * x i * dp i) + (∑ i, (0 : ℝ) * de0 i)
      + (∑ i, -2 * x i * de1 i)) =
      2 * dot3 x dp - 2 * dot3 x de1 := by
  simp only [dot3_expand, Fin.sum_univ_three]
  ring

lemma gradDot_middle_fold (uh vh dp de0 de1 : Fin 3 → ℝ) (s : ℝ) :
    ((∑ i, 2 * (vh i - s * uh i) * dp i)
      + (∑ i, -2 * (1 - s) * (vh i - s * uh i) * de0 i)
      + (∑ i, -2 * s * (vh i - s * uh i) * de1 i)) =
      2 * (dot3 vh dp - s * dot3 uh dp)
        - 2 * (1 - s) * (dot3 vh de0 - s * dot3 uh de0)
        - 2 * s * (dot3 vh de1 - s * dot3 uh de1) := by
  simp only [dot3_expand, Fin.sum_univ_three]
  ring

lemma pointEdgeDistance2_unfold (p e0 e1 : Fin 3 → ℝ) :
    pointEdgeDistance2 p e0 e1 =
      if sq3 (vsub e1 e0) = 0 then sq3 (vsub p e0)
      else if dot3 (vsub e1 e0) (vsub p e0) ≤ 0 then sq3 (vsub p e0)
      else if sq3 (vsub e1 e0) ≤ dot3 (vsub e1 e0) (vsub p e0) then
        sq3 (vsub p e1)
      else sq3 (vsub p e0)
        - dot3 (vsub e1 e0) (vsub p e0) ^ 2 / sq3 (vsub e1 e0) := rfl

/-- Along any affine path of configurations that keeps the edge
non-degenerate at the base time, the point-edge squared distance is
differentiable with derivative the gradient paired with the path
direction. -/
lemma pointEdgeDistance2_hasDerivAt_path
    (p e0 e1 dp de0 de1 : Fin 3 → ℝ) (t0 : ℝ)
    (hne : aff e0 de0 t0 ≠ aff e1 de1 t0) :
    HasDerivAt
      (fun t =>
        pointEdgeDistance2 (aff p dp t) (aff e0 de0 t) (aff e1 de1 t))
      (gradDot (aff p dp t0) (aff e0 de0 t0) (aff e1 de1 t0) dp de0 de1)
      t0 := by
  have hU := hasDerivAt_sq3_aff (vsub e1 e0) (vsub de1 de0) t0
  have hV := hasDerivAt_dot3_aff (vsub e1 e0) (vsub de1 de0)
    (vsub p e0) (vsub dp de0) t0
  have hG0 := hasDerivAt_sq3_aff (vsub p e0) (vsub dp de0) t0
  have hG1 := hasDerivAt_sq3_aff (vsub p e1) (vsub dp de1) t0
  have hU0 : 0 < sq3 (aff (vsub e1 e0) (vsub de1 de0) t0) := by
    have h := sq3_pos_of_ne
      (show aff e1 de1 t0 ≠ aff e0 de0 t0 from fun hh => hne hh.symm)
    rwa [vsub_aff] at h
  have hUne : sq3 (aff (vsub e1 e0) (vsub de1 de0) t0) ≠ 0 := ne_of_gt hU0
  have hfun : (fun t =>
      pointEdgeDistance2 (aff p dp t) (aff e0 de0 t) (aff e1 de1 t)) =
      fun t =>
        if sq3 (aff (vsub e1 e0) (vsub de1 de0) t) = 0 then
          sq3 (aff (vsub p e0) (vsub dp de0) t)
        else if dot3 (aff (vsub e1 e0) (vsub de1 de0) t)
            (aff (vsub p e0) (vsub dp de0) t) ≤ 0 then
          sq3 (aff (vsub p e0) (vsub dp de0) t)
        else if sq3 (aff (vsub e1 e0) (vsub de1 de0) t) ≤
            dot3 (aff (vsub e1 e0) (vsub de1 de0) t)
              (aff (vsub p e0) (vsub dp de0) t) then
          sq3 (aff (vsub p e1) (vsub dp de1) t)
        else sq3 (aff (vsub p e0) (vsub dp de0) t)
          - dot3 (aff (vsub e1 e0) (vsub de1 de0) t)
              (aff (vsub p e0) (vsub dp de0) t) ^ 2
            / sq3 (aff (vsub e1 e0) (vsub de1 de0) t) := by
    funext t
    rw [pointEdgeDistance2_unfold, vsub_aff, vsub_aff, vsub_aff]
  rw [hfun]
  have evU : ∀ᶠ t in nhds t0,
      0 < sq3 (aff (vsub e1 e0) (vsub de1 de0) t) :=
    Filter.Tendsto.eventually_const_lt hU0 hU.continuousAt
  have hg2 : HasDerivAt
      (fun t => sq3 (aff (vsub p e0) (vsub dp de0) t)
        - dot3 (aff (vsub e1 e0) (vsub de1 de0) t)
            (aff (vsub p e0) (vsub dp de0) t) ^ 2
          / sq3 (aff (vsub e1 e0) (vsub de1 de0) t))
      (2 * dot3 (aff (vsub p e0) (vsub dp de0) t0) (vsub dp de0)
        - (((dot3 (aff (vsub e1 e0) (vsub de1 de0) t0) (vsub dp de0)
              + dot3 (vsub de1 de0) (aff (vsub p e0) (vsub dp de0) t0))
              * dot3 (aff (vsub e1 e0) (vsub de1 de0) t0)
                  (aff (vsub p e0) (vsub dp de0) t0)
            + dot3 (aff (vsub e1 e0) (vsub de1 de0) t0)
                  (aff (vsub p e0) (vsub dp de0) t0)
              * (dot3 (aff (vsub e1 e0) (vsub de1 de0) t0) (vsub dp de0)
                + dot3 (vsub de1 de0) (aff (vsub p e0) (vsub dp de0) t0)))
            * sq3 (aff (vsub e1 e0) (vsub de1 de0) t0)
          - dot3 (aff (vsub e1 e0) (vsub de1 de0) t0)
                (aff (vsub p e0) (vsub dp de0) t0)
              * dot3 (aff (vsub e1 e0) (vsub de1 de0) t0)
                  (aff (vsub p e0) (vsub dp de0) t0)
              * (2 * dot3 (aff (vsub e1 e0) (vsub de1 de0) t0)
                  (vsub de1 de0)))
          / sq3 (aff (vsub e1 e0) (vsub de1 de0) t0) ^ 2) t0 := by
    have hq := hG0.sub ((hV.mul hV).div hU hUne)
    have hfn : (fun t => sq3 (aff (vsub p e0) (vsub dp de0) t)
        - dot3 (aff (vsub e1 e0) (vsub de1 de0) t)
            (aff (vsub p e0) (vsub dp de0) t) ^ 2
          / sq3 (aff (vsub e1 e0) (vsub de1 de0) t))
        = fun t => sq3 (aff (vsub p e0) (vsub dp de0) t)
          - dot3 (aff (vsub e1 e0) (vsub de1 de0) t)
              (aff (vsub p e0) (vsub dp de0) t)
            * dot3 (aff (vsub e1 e0) (vsub de1 de0) t)
              (aff (vsub p e0) (vsub dp de0) t)
            / sq3 (aff (vsub e1 e0) (vsub de1 de0) t) := by
      funext t
      rw [pow_two]
    rw [hfn]
    exact hq
  rcases lt_trichotomy
      (dot3 (aff (vsub e1 e0) (vsub de1 de0) t0)
        (aff (vsub p e0) (vsub dp de0) t0)) 0 with hvneg | hvzero | hvpos
  · -- region: closest point is `e0`
    have evV : ∀ᶠ t in nhds t0,
        dot3 (aff (vsub e1 e0) (vsub de1 de0) t)
          (aff (vsub p e0) (vsub dp de0) t) < 0 :=
      Filter.Tendsto.eventually_lt_const hvneg hV.continuousAt
    have hD : gradDot (aff p dp t0) (aff e0 de0 t0) (aff e1 de1 t0)
        dp de0 de1 =
        2 * dot3 (aff (vsub p e0) (vsub dp de0) t0) (vsub dp de0) := by
      simp only [gradDot, pointEdgeDistance2Gradient, vsub_aff]
      rw [if_neg hUne, if_pos hvneg.le]
      simp only [Matrix.cons_val_zero, Matrix.cons_val_one, Matrix.head_cons,
        Matrix.cons_val_two, Matrix.tail_cons]
      rw [gradDot_end0_fold]
      simp only [dot3_vsub_right, dot3_vsub_left]
      ring
    rw [hD]
    refine HasDerivAt.congr_of_eventuallyEq hG0 ?_
    filter_upwards [evU, evV] with t h1 h2
    rw [if_neg (ne_of_gt h1), if_pos h2.le]
  · -- boundary between the `e0` region and the interior region
    have evUV : ∀ᶠ t in nhds t0,
        0 < sq3 (aff (vsub e1 e0) (vsub de1 de0) t)
          - dot3 (aff (vsub e1 e0) (vsub de1 de0) t)
              (aff (vsub p e0) (vsub dp de0) t) := by
      have hlt : (0 : ℝ) < sq3 (aff (vsub e1 e0) (vsub de1 de0) t0)
          - dot3 (aff (vsub e1 e0) (vsub de1 de0) t0)
              (aff (vsub p e0) (vsub dp de0) t0) := by
        rw [hvzero]
        simpa using hU0
      have h := Filter.Tendsto.eventually_const_lt hlt
        (hU.sub hV).continuousAt
      filter_upwards [h] with t ht
      exact ht
    have heqB : (2 * dot3 (aff (vsub p e0) (vsub dp de0) t0) (vsub dp de0)
        - (((dot3 (aff (vsub e1 e0) (vsub de1 de0) t0) (vsub dp de0)
              + dot3 (vsub de1 de0) (aff (vsub p e0) (vsub dp de0) t0))
              * dot3 (aff (vsub e1 e0) (vsub de1 de0) t0)
                  (aff (vsub p e0) (vsub dp de0) t0)
            + dot3 (aff (vsub e1 e0) (vsub de1 de0) t0)
                  (aff (vsub p e0) (vsub dp de0) t0)
              * (dot3 (aff (vsub e1 e0) (vsub de1 de0) t0) (vsub dp de0)
                + dot3 (vsub de1 de0) (aff (vsub p e0) (vsub dp de0) t0)))
            * sq3 (aff (vsub e1 e0) (vsub de1 de0) t0)
          - dot3 (aff (vsub e1 e0) (vsub de1 de0) t0)
                (aff (vsub p e0) (vsub dp de0) t0)
              * dot3 (aff (vsub e1 e0) (vsub de1 de0) t0)
                  (aff (vsub p e0) (vsub dp de0) t0)
              * (2 * dot3 (aff (vsub e1 e0) (vsub de1 de0) t0)
                  (vsub de1 de0)))
          / sq3 (aff (vsub e1 e0) (vsub de1 de0) t0) ^ 2)
        = 2 * dot3 (aff (vsub p e0) (vsub dp de0) t0) (vsub dp de0) := by
      rw [hvzero]
      simp
    have hg2d : HasDerivAt
        (fun t => sq3 (aff (vsub p e0) (vsub dp de0) t)
          - dot3 (aff (vsub e1 e0) (vsub de1 de0) t)
              (aff (vsub p e0) (vsub dp de0) t) ^ 2
            / sq3 (aff (vsub e1 e0) (vsub de1 de0) t))
        (2 * dot3 (aff (vsub p e0) (vsub dp de0) t0) (vsub dp de0)) t0 := by
      rw [← heqB]
      exact hg2
    have hD : gradDot (aff p dp t0) (aff e0 de0 t0) (aff e1 de1 t0)
        dp de0 de1 =
        2 * dot3 (aff (vsub p e0) (vsub dp de0) t0) (vsub dp de0) := by
      simp only [gradDot, pointEdgeDistance2Gradient, vsub_aff]
      rw [if_neg hUne, if_pos hvzero.le]
      simp only [Matrix.cons_val_zero, Matrix.cons_val_one, Matrix.head_cons,
        Matrix.cons_val_two, Matrix.tail_cons]
      rw [gradDot_end0_fold]
      simp only [dot3_vsub_right, dot3_vsub_left]
      ring
    rw [hD]
    refine hasDerivAt_of_two_branches hG0 hg2d ?_ ?_ ?_
    · rw [if_neg hUne, if_pos hvzero.le]
    · rw [if_neg hUne, if_pos hvzero.le, hvzero]
      norm_num
    · filter_upwards [evU, evUV] with t h1 h2
      rw [if_neg (ne_of_gt h1)]
      by_cases hv3 : dot3 (aff (vsub e1 e0) (vsub de1 de0) t)
          (aff (vsub p e0) (vsub dp de0) t) ≤ 0
      · rw [if_pos hv3]
        left
        rfl
      · rw [if_neg hv3, if_neg (not_le.mpr (by linarith))]
        right
        rfl
  · rcases lt_trichotomy
        (dot3 (aff (vsub e1 e0) (vsub de1 de0) t0)
          (aff (vsub p e0) (vsub dp de0) t0))
        (sq3 (aff (vsub e1 e0) (vsub de1 de0) t0)) with hvu | hvu | hvu
    · -- interior region
      have evV : ∀ᶠ t in nhds t0,
          0 < dot3 (aff (vsub e1 e0) (vsub de1 de0) t)
            (aff (vsub p e0) (vsub dp de0) t) :=
        Filter.Tendsto.eventually_const_lt hvpos hV.continuousAt
      have evUV : ∀ᶠ t in nhds t0,
          dot3 (aff (vsub e1 e0) (vsub de1 de0) t)
              (aff (vsub p e0) (vsub dp de0) t)
            < sq3 (aff (vsub e1 e0) (vsub de1 de0) t) := by
        have h := Filter.Tendsto.eventually_const_lt
          (show (0 : ℝ) < sq3 (aff (vsub e1 e0) (vsub de1 de0) t0)
              - dot3 (aff (vsub e1 e0) (vsub de1 de0) t0)
                (aff (vsub p e0) (vsub dp de0) t0) from by linarith)
          (hU.sub hV).continuousAt
        filter_upwards [h] with t ht
        linarith
      have hD : gradDot (aff p dp t0) (aff e0 de0 t0) (aff e1 de1 t0)
          dp de0 de1 =
          2 * dot3 (aff (vsub p e0) (vsub dp de0) t0) (vsub dp de0)
            - (((dot3 (aff (vsub e1 e0) (vsub de1 de0) t0) (vsub dp de0)
                  + dot3 (vsub de1 de0) (aff (vsub p e0) (vsub dp de0) t0))
                  * dot3 (aff (vsub e1 e0) (vsub de1 de0) t0)
                      (aff (vsub p e0) (vsub dp de0) t0)
                + dot3 (aff (vsub e1 e0) (vsub de1 de0) t0)
                      (aff (vsub p e0) (vsub dp de0) t0)
                  * (dot3 (aff (vsub e1 e0) (vsub de1 de0) t0)
                        (vsub dp de0)
                    + dot3 (vsub de1 de0)
                        (aff (vsub p e0) (vsub dp de0) t0)))
                * sq3 (aff (vsub e1 e0) (vsub de1 de0) t0)
              - dot3 (aff (vsub e1 e0) (vsub de1 de0) t0)
                    (aff (vsub p e0) (vsub dp de0) t0)
                  * dot3 (aff (vsub e1 e0) (vsub de1 de0) t0)
                      (aff (vsub p e0) (vsub dp de0) t0)
                  * (2 * dot3 (aff (vsub e1 e0) (vsub de1 de0) t0)
                      (vsub de1 de0)))
              / sq3 (aff (vsub e1 e0) (vsub de1 de0) t0) ^ 2 := by
        simp only [gradDot, pointEdgeDistance2Gradient, vsub_aff]
        rw [if_neg hUne, if_neg (not_le.mpr hvpos), if_neg (not_le.mpr hvu)]
        simp only [Matrix.cons_val_zero, Matrix.cons_val_one,
          Matrix.head_cons, Matrix.cons_val_two, Matrix.tail_cons]
        rw [gradDot_middle_fold]
        simp only [dot3_vsub_right, dot3_vsub_left]
        field_simp
        ring
      rw [hD]
      refine HasDerivAt.congr_of_eventuallyEq hg2 ?_
      filter_upwards [evU, evV, evUV] with t h1 h2 h3
      rw [if_neg (ne_of_gt h1), if_neg (not_le.mpr h2),
        if_neg (not_le.mpr h3)]
    · -- boundary between the interior region and the `e1` region
      have evV : ∀ᶠ t in nhds t0,
          0 < dot3 (aff (vsub e1 e0) (vsub de1 de0) t)
            (aff (vsub p e0) (vsub dp de0) t) :=
        Filter.Tendsto.eventually_const_lt hvpos hV.continuousAt
      have heqD : (2 * dot3 (aff (vsub p e0) (vsub dp de0) t0)
            (vsub dp de0)
          - (((dot3 (aff (vsub e1 e0) (vsub de1 de0) t0) (vsub dp de0)
                + dot3 (vsub de1 de0) (aff (vsub p e0) (vsub dp de0) t0))
                * dot3 (aff (vsub e1 e0) (vsub de1 de0) t0)
                    (aff (vsub p e0) (vsub dp de0) t0)
              + dot3 (aff (vsub e1 e0) (vsub de1 de0) t0)
                    (aff (vsub p e0) (vsub dp de0) t0)
                * (dot3 (aff (vsub e1 e0) (vsub de1 de0) t0) (vsub dp de0)
                  + dot3 (vsub de1 de0)
                      (aff (vsub p e0) (vsub dp de0) t0)))
              * sq3 (aff (vsub e1 e0) (vsub de1 de0) t0)
            - dot3 (aff (vsub e1 e0) (vsub de1 de0) t0)
                  (aff (vsub p e0) (vsub dp de0) t0)
                * dot3 (aff (vsub e1 e0) (vsub de1 de0) t0)
                    (aff (vsub p e0) (vsub dp de0) t0)
                * (2 * dot3 (aff (vsub e1 e0) (vsub de1 de0) t0)
                    (vsub de1 de0)))
            / sq3 (aff (vsub e1 e0) (vsub de1 de0) t0) ^ 2)
          = 2 * dot3 (aff (vsub p e1) (vsub dp de1) t0) (vsub dp de1) := by
        rw [hvu]
        rw [dot3_aff_split p e0 e1 dp de0 de1 (vsub dp de1) t0]
        simp only [dot3_vsub_right, dot3_vsub_left, dot3_aff_split p e0 e1 dp de0 de1]
        field_simp
        ring
      have hg1d : HasDerivAt
          (fun t => sq3 (aff (vsub p e1) (vsub dp de1) t))
          (2 * dot3 (aff (vsub p e0) (vsub dp de0) t0) (vsub dp de0)
            - (((dot3 (aff (vsub e1 e0) (vsub de1 de0) t0) (vsub dp de0)
                  + dot3 (vsub de1 de0) (aff (vsub p e0) (vsub dp de0) t0))
                  * dot3 (aff (vsub e1 e0) (vsub de1 de0) t0)
                      (aff (vsub p e0) (vsub dp de0) t0)
                + dot3 (aff (vsub e1 e0) (vsub de1 de0) t0)
                      (aff (vsub p e0) (vsub dp de0) t0)
                  * (dot3 (aff (vsub e1 e0) (vsub de1 de0) t0)
                        (vsub dp de0)
                    + dot3 (vsub de1 de0)
                        (aff (vsub p e0) (vsub dp de0) t0)))
                * sq3 (aff (vsub e1 e0) (vsub de1 de0) t0)
              - dot3 (aff (vsub e1 e0) (vsub de1 de0) t0)
                    (aff (vsub p e0) (vsub dp de0) t0)
                  * dot3 (aff (vsub e1 e0) (vsub de1 de0) t0)
                      (aff (vsub p e0) (vsub dp de0) t0)
                  * (2 * dot3 (aff (vsub e1 e0) (vsub de1 de0) t0)
                      (vsub de1 de0)))
              / sq3 (aff (vsub e1 e0) (vsub de1 de0) t0) ^ 2) t0 := by
        rw [heqD]
        exact hG1
      rw [show gradDot (aff p dp t0) (aff e0 de0 t0) (aff e1 de1 t0)
          dp de0 de1 =
          2 * dot3 (aff (vsub p e1) (vsub dp de1) t0) (vsub dp de1) from ?_]
      · refine hasDerivAt_of_two_branches (heqD ▸ hg2) (heqD ▸ hg1d) ?_ ?_ ?_
        · rw [if_neg hUne, if_neg (not_le.mpr hvpos), if_pos hvu.ge]
          have hid := dist2_vsub_e1 (aff p dp t0) (aff e0 de0 t0)
            (aff e1 de1 t0)
          rw [vsub_aff, vsub_aff, vsub_aff] at hid
          rw [hid, hvu]
          field_simp
          ring
        · rw [if_neg hUne, if_neg (not_le.mpr hvpos), if_pos hvu.ge]
        · filter_upwards [evU, evV] with t h1 h2
          rw [if_neg (ne_of_gt h1), if_neg (not_le.mpr h2)]
          by_cases hv3 : sq3 (aff (vsub e1 e0) (vsub de1 de0) t) ≤
              dot3 (aff (vsub e1 e0) (vsub de1 de0) t)
                (aff (vsub p e0) (vsub dp de0) t)
          · rw [if_pos hv3]
            right
            rfl
          · rw [if_neg hv3]
            left
            rfl
      · simp only [gradDot, pointEdgeDistance2Gradient, vsub_aff]
        rw [if_neg hUne, if_neg (not_le.mpr hvpos), if_pos hvu.ge]
        simp only [Matrix.cons_val_zero, Matrix.cons_val_one,
          Matrix.head_cons, Matrix.cons_val_two, Matrix.tail_cons]
        simp only [aff_sub_apply]
        rw [gradDot_end1_fold]
        simp only [dot3_vsub_right, dot3_vsub_left]
        ring
    · -- region: closest point is `e1`
      have evV : ∀ᶠ t in nhds t0,
          0 < dot3 (aff (vsub e1 e0) (vsub de1 de0) t)
            (aff (vsub p e0) (vsub dp de0) t) :=
        Filter.Tendsto.eventually_const_lt hvpos hV.continuousAt
      have evUV : ∀ᶠ t in nhds t0,
          sq3 (aff (vsub e1 e0) (vsub de1 de0) t)
            < dot3 (aff (vsub e1 e0) (vsub de1 de0) t)
                (aff (vsub p e0) (vsub dp de0) t) := by
        have h := Filter.Tendsto.eventually_const_lt
          (show (0 : ℝ) < dot3 (aff (vsub e1 e0) (vsub de1 de0) t0)
                (aff (vsub p e0) (vsub dp de0) t0)
              - sq3 (aff (vsub e1 e0) (vsub de1 de0) t0) from by linarith)
          (hV.sub hU).continuousAt
        filter_upwards [h] with t ht
        linarith
      have hD : gradDot (aff p dp t0) (aff e0 de0 t0) (aff e1 de1 t0)
          dp de0 de1 =
          2 * dot3 (aff (vsub p e1) (vsub dp de1) t0) (vsub dp de1) := by
        simp only [gradDot, pointEdgeDistance2Gradient, vsub_aff]
        rw [if_neg hUne, if_neg (not_le.mpr hvpos), if_pos hvu.le]
        simp only [Matrix.cons_val_zero, Matrix.cons_val_one,
          Matrix.head_cons, Matrix.cons_val_two, Matrix.tail_cons]
        simp only [aff_sub_apply]
        rw [gradDot_end1_fold]
        simp only [dot3_vsub_right, dot3_vsub_left]
        ring
      rw [hD]
      refine HasDerivAt.congr_of_eventuallyEq hG1 ?_
      filter_upwards [evU, evV, evUV] with t h1 h2 h3
      rw [if_neg (ne_of_gt h1), if_neg (not_le.mpr h2), if_pos h3.le]

lemma aff_zero (c : Fin 3 → ℝ) (t : ℝ) : aff c (fun _ => 0) t = c := by
  funext j
  simp [aff]

lemma aff_update_t (c : Fin 3 → ℝ) (i : Fin 3) (t : ℝ) :
    aff (Function.update c i 0) (Pi.single i 1) t = Function.update c i t := by
  funext j
  by_cases hj : j = i
  · subst hj
    simp [aff, Function.update_apply, Pi.single_apply]
  · simp [aff, Function.update_apply, Pi.single_apply, hj]

lemma aff_update_self (c : Fin 3 → ℝ) (i : Fin 3) :
    aff (Function.update c i 0) (Pi.single i 1) (c i) = c := by
  rw [aff_update_t, Function.update_eq_self]

lemma dot3_single (x : Fin 3 → ℝ) (i : Fin 3) (c : ℝ) :
    dot3 x (Pi.single i c) = x i * c := by
  fin_cases i <;> simp [dot3_expand, Pi.single_apply]

lemma vsub_update_aff (a b : Fin 3 → ℝ) (i : Fin 3) (t : ℝ) :
    aff (vsub (Function.update a i 0) b) (Pi.single i 1) t =
      vsub (Function.update a i t) b := by
  funext j
  by_cases hj : j = i
  · subst hj
    simp [aff, vsub, Function.update_apply, Pi.single_apply]
    ring
  · simp [aff, vsub, Function.update_apply, Pi.single_apply, hj]

lemma vsub_update_aff_b (a b : Fin 3 → ℝ) (i : Fin 3) (t : ℝ) :
    aff (vsub a (Function.update b i 0)) (Pi.single i (-1)) t =
      vsub a (Function.update b i t) := by
  funext j
  by_cases hj : j = i
  · subst hj
    simp [aff, vsub, Function.update_apply, Pi.single_apply]
    ring
  · simp [aff, vsub, Function.update_apply, Pi.single_apply, hj]

lemma pointPoint_partial_a (a b : Fin 3 → ℝ) (i : Fin 3) :
    HasDerivAt (fun t => pointPointDistance2 (Function.update a i t) b)
      (pointPointDistance2Gradient a b (0, i)) (a i) := by
  have h := hasDerivAt_sq3_aff (vsub (Function.update a i 0) b)
    (Pi.single i 1) (a i)
  have hfn : (fun t => sq3 (aff (vsub (Function.update a i 0) b)
      (Pi.single i 1) t)) =
      fun t => pointPointDistance2 (Function.update a i t) b := by
    funext t
    rw [pointPointDistance2, vsub_update_aff]
  rw [hfn] at h
  have hval : 2 * dot3 (aff (vsub (Function.update a i 0) b)
      (Pi.single i 1) (a i)) (Pi.single i 1) =
      pointPointDistance2Gradient a b (0, i) := by
    rw [vsub_update_aff, Function.update_eq_self, dot3_single]
    simp [pointPointDistance2Gradient, vsub_apply]
    try ring
  rw [hval] at h
  exact h

lemma pointPoint_partial_b (a b : Fin 3 → ℝ) (i : Fin 3) :
    HasDerivAt (fun t => pointPointDistance2 a (Function.update b i t))
      (pointPointDistance2Gradient a b (1, i)) (b i) := by
  have h := hasDerivAt_sq3_aff (vsub a (Function.update b i 0))
    (Pi.single i (-1)) (b i)
  have hfn : (fun t => sq3 (aff (vsub a (Function.update b i 0))
      (Pi.single i (-1)) t)) =
      fun t => pointPointDistance2 a (Function.update b i t) := by
    funext t
    rw [pointPointDistance2, vsub_update_aff_b]
  rw [hfn] at h
  have hval : 2 * dot3 (aff (vsub a (Function.update b i 0))
      (Pi.single i (-1)) (b i)) (Pi.single i (-1)) =
      pointPointDistance2Gradient a b (1, i) := by
    rw [vsub_update_aff_b, Function.update_eq_self, dot3_single]
    simp [pointPointDistance2Gradient, vsub_apply]
    try ring
  rw [hval] at h
  exact h

lemma gradDot_single_p (p e0 e1 : Fin 3 → ℝ) (i : Fin 3) :
    gradDot p e0 e1 (Pi.single i 1) (fun _ => 0) (fun _ => 0) =
      pointEdgeDistance2Gradient p e0 e1 (0, i) := by
  rw [gradDot]
  fin_cases i <;> simp [Fin.sum_univ_three, Pi.single_apply]

lemma gradDot_single_e0 (p e0 e1 : Fin 3 → ℝ) (i : Fin 3) :
    gradDot p e0 e1 (fun _ => 0) (Pi.single i 1) (fun _ => 0) =
      pointEdgeDistance2Gradient p e0 e1 (1, i) := by
  rw [gradDot]
  fin_cases i <;> simp [Fin.sum_univ_three, Pi.single_apply]

lemma gradDot_single_e1 (p e0 e1 : Fin 3 → ℝ) (i : Fin 3) :
    gradDot p e0 e1 (fun _ => 0) (fun _ => 0) (Pi.single i 1) =
      pointEdgeDistance2Gradient p e0 e1 (2, i) := by
  rw [gradDot]
  fin_cases i <;> simp [Fin.sum_univ_three, Pi.single_apply]

lemma pointEdge_partial_p (p e0 e1 : Fin 3 → ℝ) (i : Fin 3) (h : e0 ≠ e1) :
    HasDerivAt (fun t => pointEdgeDistance2 (Function.update p i t) e0 e1)
      (pointEdgeDistance2Gradient p e0 e1 (0, i)) (p i) := by
  have hne : aff e0 (fun _ => 0) (p i) ≠ aff e1 (fun _ => 0) (p i) := by
    rw [aff_zero, aff_zero]
    exact h
  have hmain := pointEdgeDistance2_hasDerivAt_path (Function.update p i 0)
    e0 e1 (Pi.single i 1) (fun _ => 0) (fun _ => 0) (p i) hne
  rw [aff_update_self, aff_zero e0 (p i), aff_zero e1 (p i),
    gradDot_single_p] at hmain
  have hfn : (fun t => pointEdgeDistance2
      (aff (Function.update p i 0) (Pi.single i 1) t)
      (aff e0 (fun _ => 0) t) (aff e1 (fun _ => 0) t)) =
      fun t => pointEdgeDistance2 (Function.update p i t) e0 e1 := by
    funext t
    rw [aff_update_t, aff_zero, aff_zero]
  rw [hfn] at hmain
  exact hmain

lemma pointEdge_partial_e0 (p e0 e1 : Fin 3 → ℝ) (i : Fin 3) (h : e0 ≠ e1) :
    HasDerivAt (fun t => pointEdgeDistance2 p (Function.update e0 i t) e1)
      (pointEdgeDistance2Gradient p e0 e1 (1, i)) (e0 i) := by
  have hne : aff (Function.update e0 i 0) (Pi.single i 1) (e0 i)
      ≠ aff e1 (fun _ => 0) (e0 i) := by
    rw [aff_update_self, aff_zero]
    exact h
  have hmain := pointEdgeDistance2_hasDerivAt_path p
    (Function.update e0 i 0) e1 (fun _ => 0) (Pi.single i 1) (fun _ => 0)
    (e0 i) hne
  rw [aff_update_self, aff_zero p (e0 i), aff_zero e1 (e0 i),
    gradDot_single_e0] at hmain
  have hfn : (fun t => pointEdgeDistance2 (aff p (fun _ => 0) t)
      (aff (Function.update e0 i 0) (Pi.single i 1) t)
      (aff e1 (fun _ => 0) t)) =
      fun t => pointEdgeDistance2 p (Function.update e0 i t) e1 := by
    funext t
    rw [aff_update_t, aff_zero, aff_zero]
  rw [hfn] at hmain
  exact hmain

lemma pointEdge_partial_e1 (p e0 e1 : Fin 3 → ℝ) (i : Fin 3) (h : e0 ≠ e1) :
    HasDerivAt (fun t => pointEdgeDistance2 p e0 (Function.update e1 i t))
      (pointEdgeDistance2Gradient p e0 e1 (2, i)) (e1 i) := by
  have hne : aff e0 (fun _ => 0) (e1 i)
      ≠ aff (Function.update e1 i 0) (Pi.single i 1) (e1 i) := by
    rw [aff_update_self, aff_zero]
    exact h
  have hmain := pointEdgeDistance2_hasDerivAt_path p e0
    (Function.update e1 i 0) (fun _ => 0) (fun _ => 0) (Pi.single i 1)
    (e1 i) hne
  rw [aff_update_self, aff_zero p (e1 i), aff_zero e0 (e1 i),
    gradDot_single_e1] at hmain
  have hfn : (fun t => pointEdgeDistance2 (aff p (fun _ => 0) t)
      (aff e0 (fun _ => 0) t)
      (aff (Function.update e1 i 0) (Pi.single i 1) t)) =
      fun t => pointEdgeDistance2 p e0 (Function.update e1 i t) := by
    funext t
    rw [aff_update_t, aff_zero, aff_zero]
  rw [hfn] at hmain
  exact hmain

/-- C1.  For both supported primitive pair types the gradient kernel
returns exactly the vector of partial derivatives of the paired value
kernel with respect to each coordinate of each primitive, in the documented
concatenation order (point-point: blocks `a`, `b`; point-edge: blocks `p`,
`e0`, `e1`): the coordinate slice of the value kernel through any
configuration (with a non-degenerate edge, the domain where the smooth
formulas of §4.1 apply — the zero-length edge is handled by the separate
degenerate policy of C2) has derivative the corresponding gradient
component.
Reason `spec-modelled`: the kernel bodies are not among the given sources. -/
theorem claim_C1_gradients_are_exact_partials :
    ∀ a b p e0 e1 : Fin 3 → ℝ, e0 ≠ e1 →
      (∀ i : Fin 3,
        HasDerivAt (fun t => pointPointDistance2 (Function.update a i t) b)
          (pointPointDistance2Gradient a b (0, i)) (a i) ∧
        HasDerivAt (fun t => pointPointDistance2 a (Function.update b i t))
          (pointPointDistance2Gradient a b (1, i)) (b i)) ∧
      (∀ i : Fin 3,
        HasDerivAt
          (fun t => pointEdgeDistance2 (Function.update p i t) e0 e1)
          (pointEdgeDistance2Gradient p e0 e1 (0, i)) (p i) ∧
        HasDerivAt
          (fun t => pointEdgeDistance2 p (Function.update e0 i t) e1)
          (pointEdgeDistance2Gradient p e0 e1 (1, i)) (e0 i) ∧
        HasDerivAt
          (fun t => pointEdgeDistance2 p e0 (Function.update e1 i t))
          (pointEdgeDistance2Gradient p e0 e1 (2, i)) (e1 i)) := by
  intro a b p e0 e1 hne
  exact ⟨fun i => ⟨pointPoint_partial_a a b i, pointPoint_partial_b a b i⟩,
    fun i => ⟨pointEdge_partial_p p e0 e1 i hne,
      pointEdge_partial_e0 p e0 e1 i hne,
      pointEdge_partial_e1 p e0 e1 i hne⟩⟩

/-- C1 witness at a concrete configuration with a non-degenerate edge
(`p = (1,0,1)`, `e0 = (0,0,0)`, `e1 = (2,0,0)`, interior-projection
region). -/
theorem claim_C1_witness :
    HasDerivAt
      (fun t => pointPointDistance2
        (Function.update (![0, 0, 0] : Fin 3 → ℝ) 0 t) ![1, 2, 3])
      (pointPointDistance2Gradient ![0, 0, 0] ![1, 2, 3] (0, 0)) 0 ∧
    HasDerivAt
      (fun t => pointEdgeDistance2
        (Function.update (![1, 0, 1] : Fin 3 → ℝ) 0 t) ![0, 0, 0] ![2, 0, 0])
      (pointEdgeDistance2Gradient ![1, 0, 1] ![0, 0, 0] ![2, 0, 0] (0, 0))
      1 ∧
    HasDerivAt
      (fun t => pointEdgeDistance2 ![1, 0, 1]
        (Function.update (![0, 0, 0] : Fin 3 → ℝ) 0 t) ![2, 0, 0])
      (pointEdgeDistance2Gradient ![1, 0, 1] ![0, 0, 0] ![2, 0, 0] (1, 0))
      0 := by
  have hne : (![0, 0, 0] : Fin 3 → ℝ) ≠ ![2, 0, 0] := by
    intro h
    have h0 := congrFun h 0
    norm_num at h0
  have h := claim_C1_gradients_are_exact_partials ![0, 0, 0] ![1, 2, 3]
    ![1, 0, 1] ![0, 0, 0] ![2, 0, 0] hne
  refine ⟨?_, ?_, ?_⟩
  · have := (h.1 0).1
    simpa using this
  · have := (h.2 0).1
    simpa using this
  · have := (h.2 0).2.1
    simpa using this

end Uipc
